import Mathlib

/-!
Verification development for `commitHistoryTracker.py`, a script that walks a
directory tree for git repositories, extracts commit history filtered by author
identity and date range, and exports the result as a spreadsheet table.

The Python source is shallowly embedded below.  Strings are `List Char`;
`str.lower`, `str.split(sep, maxsplit)`, `str.replace`, the `in` substring
test and `datetime.fromisoformat` are modelled explicitly; subprocess calls
are modelled by an oracle `run : List (List Char) → ProcResult` mapping the
command line actually issued to the result the environment produced; console
output is modelled as a list of abstract messages in emission order.
-/

/-- ASCII lowering of one character, modelling Python `str.lower` on the
ASCII subset used by this program's identity strings and git author names. -/
def pyLower (c : Char) : Char :=
  if 'A' ≤ c ∧ c ≤ 'Z' then Char.ofNat (c.toNat + 32) else c

/-- `isPrefixB n h` tests whether `n` is a prefix of `h` (Boolean version). -/
def isPrefixB : List Char → List Char → Bool
  | [], _ => true
  | _ :: _, [] => false
  | a :: as, b :: bs => a == b && isPrefixB as bs

/-- `isSubstrB n h` models the Python substring test `n in h`:
`n` occurs contiguously in `h` (the empty string occurs in everything). -/
def isSubstrB (n : List Char) : List Char → Bool
  | [] => n.isEmpty
  | c :: cs => isPrefixB n (c :: cs) || isSubstrB n cs

/-- Split off everything before the first occurrence of `sep`, returning
`(before, after)`; `none` when `sep` does not occur. -/
def splitFirst (sep : Char) : List Char → Option (List Char × List Char)
  | [] => none
  | c :: cs =>
    if c = sep then some ([], cs)
    else (splitFirst sep cs).map (fun p => (c :: p.1, p.2))

/-- Model of Python `line.split(",", 2)` (line 72 of the source): split on at
most the first two commas, so the result has one, two or three fields and the
third field keeps any further commas verbatim. -/
def pySplit2 (l : List Char) : List (List Char) :=
  match splitFirst ',' l with
  | none => [l]
  | some (a, r) =>
    match splitFirst ',' r with
    | none => [a, r]
    | some (b, r2) => [a, b, r2]

/-- Model of Python `s.replace(a, b)` for one-character patterns and
one-character replacements: every occurrence of `a` becomes `b`. -/
def pyReplaceChar (a b : Char) (l : List Char) : List Char :=
  l.map (fun c => if c = a then b else c)

/-- Model of Python `s.replace("Z", "+00:00")`: every `'Z'` is expanded to
the six characters `+00:00`. -/
def pyReplaceZ (l : List Char) : List Char :=
  l.flatMap (fun c => if c = 'Z' then ['+', '0', '0', ':', '0', '0'] else [c])

/-- The timestamp normalisation of source line 78:
`date_str.replace(" ", "T").replace("Z", "+00:00")`. -/
def pyNormalizeTs (l : List Char) : List Char :=
  pyReplaceZ (pyReplaceChar ' ' 'T' l)

/-- Model of Python truthiness for an optional string (`if start_date and
end_date:`): present and non-empty. -/
def pyTruthy : Option (List Char) → Bool
  | none => false
  | some s => !s.isEmpty

/-- A parsed `datetime` value: calendar fields plus an optional UTC offset in
minutes (`none` for a naive datetime). -/
structure PyDateTime where
  year : Nat
  month : Nat
  day : Nat
  hour : Nat
  minute : Nat
  second : Nat
  offset : Option Int
deriving DecidableEq, Repr

/-- One decimal digit. -/
def parseDigit (c : Char) : Option Nat :=
  if c.isDigit then some (c.toNat - 48) else none

/-- Two decimal digits, returning the value and the rest of the input. -/
def parse2 : List Char → Option (Nat × List Char)
  | c1 :: c2 :: r => do
    let a ← parseDigit c1
    let b ← parseDigit c2
    pure (10 * a + b, r)
  | _ => none

/-- Four decimal digits, returning the value and the rest of the input. -/
def parse4 : List Char → Option (Nat × List Char)
  | c1 :: c2 :: c3 :: c4 :: r => do
    let a ← parseDigit c1
    let b ← parseDigit c2
    let c ← parseDigit c3
    let d ← parseDigit c4
    pure (1000 * a + 100 * b + 10 * c + d, r)
  | _ => none

/-- Consume one expected character. -/
def expectChar (c : Char) : List Char → Option (List Char)
  | [] => none
  | x :: r => if x = c then some r else none

/-- Gregorian leap-year test, as used by Python's `datetime` validation. -/
def isLeap (y : Nat) : Bool :=
  y % 4 = 0 && (y % 100 ≠ 0 || y % 400 = 0)

/-- Days in a month, as used by Python's `datetime` validation. -/
def daysInMonth (y m : Nat) : Nat :=
  if m = 2 then (if isLeap y then 29 else 28)
  else if m = 4 ∨ m = 6 ∨ m = 9 ∨ m = 11 then 30
  else 31

/-- Time-of-day part `HH:MM[:SS]`, returning hour, minute, second and the
rest of the input. -/
def parseTimePart (l : List Char) : Option (Nat × Nat × Nat × List Char) := do
  let (h, r1) ← parse2 l
  let r2 ← expectChar ':' r1
  let (mi, r3) ← parse2 r2
  match expectChar ':' r3 with
  | some r4 => do
    let (s, r5) ← parse2 r4
    pure (h, mi, s, r5)
  | none => pure (h, mi, 0, r3)

/-- Model of `datetime.fromisoformat` as documented for CPython 3.7–3.10
(the strict inverse of `datetime.isoformat`, which is the grammar the source
relies on — it pre-rewrites `"Z"` to `"+00:00"` precisely because a bare
`"Z"` suffix is not accepted): `YYYY-MM-DD`, optionally followed by a single
separator character of any kind, a time `HH:MM[:SS]`, and an optional offset
`±HH:MM`.  Fractional seconds are omitted from the model; `git log
--date=iso` never emits them.  Field ranges are validated as Python does. -/
def pyFromisoformat (l : List Char) : Option PyDateTime := do
  let (y, r1) ← parse4 l
  let r2 ← expectChar '-' r1
  let (mo, r3) ← parse2 r2
  let r4 ← expectChar '-' r3
  let (d, r5) ← parse2 r4
  if 1 ≤ y ∧ 1 ≤ mo ∧ mo ≤ 12 ∧ 1 ≤ d ∧ d ≤ daysInMonth y mo then
    match r5 with
    | [] => pure ⟨y, mo, d, 0, 0, 0, none⟩
    | _ :: rest => do
      let (h, mi, s, r6) ← parseTimePart rest
      if h ≤ 23 ∧ mi ≤ 59 ∧ s ≤ 59 then
        match r6 with
        | [] => pure ⟨y, mo, d, h, mi, s, none⟩
        | c :: r7 =>
          if c = '+' ∨ c = '-' then do
            let (oh, r8) ← parse2 r7
            let r9 ← expectChar ':' r8
            let (om, r10) ← parse2 r9
            if oh ≤ 23 ∧ om ≤ 59 ∧ r10 = [] then
              pure ⟨y, mo, d, h, mi, s,
                some (if c = '-' then -(oh * 60 + om : Int) else (oh * 60 + om : Int))⟩
            else none
          else none
      else none
  else none

/-- A commit record as appended on source line 85:
`[repo_name, date_obj, message]`. -/
structure Commit where
  repo : List Char
  date : PyDateTime
  message : List Char
deriving DecidableEq, Repr

/-- The identity filter of source lines 81–84:
`any(username.lower() in author.lower() for username in usernames)`. -/
def matchesAny (usernames : List (List Char)) (author : List Char) : Bool :=
  usernames.any (fun u => isSubstrB (u.map pyLower) (author.map pyLower))

/-- The per-line processing of source lines 71–88: split on the first two
commas; lines with fewer than three fields are skipped; the timestamp is
normalised and parsed, a `ValueError` skipping the line; surviving lines are
kept exactly when the author matches the identity filter. -/
def parseLine (repoName : List Char) (usernames : List (List Char))
    (line : List Char) : Option Commit :=
  match pySplit2 line with
  | [dateStr, author, message] =>
    match pyFromisoformat (pyNormalizeTs dateStr) with
    | some d =>
      if matchesAny usernames author then some ⟨repoName, d, message⟩ else none
    | none => none
  | _ => none

/-- The fixed commit-log command of source line 56:
`["git", "log", "--pretty=format:%cd,%an,%s", "--date=iso"]`. -/
def base_git_cmd : List (List Char) :=
  ["git".toList, "log".toList, "--pretty=format:%cd,%an,%s".toList, "--date=iso".toList]

/-- The `--since=<date>` argument of source line 60. -/
def sinceArg (d : List Char) : List Char := "--since=".toList ++ d

/-- The `--until=<date>` argument of source line 61. -/
def untilArg (d : List Char) : List Char := "--until=".toList ++ d

/-- The commit-log command actually issued (source lines 56–61): the date
bound flags are appended exactly when `start_date and end_date` is truthy. -/
def gitLogCmd (start_date end_date : Option (List Char)) : List (List Char) :=
  if pyTruthy start_date && pyTruthy end_date then
    base_git_cmd ++ [sinceArg (start_date.getD []), untilArg (end_date.getD [])]
  else
    base_git_cmd

/-- The author-listing command of source line 46:
`["git", "log", "--format=%an"]` — issued with no date arguments. -/
def all_authors_cmd : List (List Char) :=
  ["git".toList, "log".toList, "--format=%an".toList]

/-- Whether a command line carries any `--since=`/`--until=` date bound. -/
def hasDateBound (cmd : List (List Char)) : Bool :=
  cmd.any (fun a => "--since=".toList.isPrefixOf a || "--until=".toList.isPrefixOf a)

/-- Result of one subprocess invocation (`subprocess.run` with
`capture_output=True, text=True`): return code, stdout already split into
lines (`stdout.splitlines()`), and stderr. -/
structure ProcResult where
  returncode : Int
  stdout : List (List Char)
  stderr : List Char
deriving DecidableEq, Repr

/-- Console output events, in emission order, one constructor per `print`
call of the source. -/
inductive Msg where
  | skipNotGit (repo : List Char)
  | allAuthorsIn (repo : List Char) (authors : List (List Char))
  | runningCmd (cmd : List (List Char))
  | foundEntries (n : Nat)
  | foundMatching (n : Nat)
  | errorGitLog (stderr : List Char)
  | collectingRange (s e : Option (List Char))
  | lookingFor (usernames : List (List Char))
  | foundRepos (n : Nat)
  | processingRepo (repo : List Char)
  | summaryAuthors (authors : List (List Char))
  | summaryUsernames (usernames : List (List Char))
  | exportedTo
  | totalCommits (n : Nat)
  | noCommitsFound
  | checkUsernames
deriving DecidableEq, Repr

/-- Return value of `get_commit_history`, plus the messages it printed. -/
structure GchResult where
  commits : List Commit
  authors : List (List Char)
  msgs : List Msg
deriving DecidableEq, Repr

/-- Embedding of `get_commit_history` (source lines 22–94).  `isGit` models
the `os.path.isdir(repo_dir/".git")` check; `run` is the subprocess oracle:
it maps the command line issued (working directory fixed to this repository)
to the completed process.  The author set `set(stdout.splitlines())` is
modelled as a deduplicated list. -/
def get_commit_history (repoName : List Char) (isGit : Bool)
    (usernames : List (List Char)) (start_date end_date : Option (List Char))
    (run : List (List Char) → ProcResult) : GchResult :=
  if isGit = false then
    ⟨[], [], [Msg.skipNotGit repoName]⟩
  else
    let aRes := run all_authors_cmd
    let authors := if aRes.returncode = 0 then aRes.stdout.dedup else []
    let aMsgs :=
      if aRes.returncode = 0 then [Msg.allAuthorsIn repoName authors] else []
    let cmd := gitLogCmd start_date end_date
    let lRes := run cmd
    if lRes.returncode = 0 then
      let commits := lRes.stdout.filterMap (parseLine repoName usernames)
      ⟨commits, authors,
        aMsgs ++ [Msg.runningCmd cmd, Msg.foundEntries lRes.stdout.length,
                  Msg.foundMatching commits.length]⟩
    else
      ⟨[], authors, aMsgs ++ [Msg.runningCmd cmd, Msg.errorGitLog lRes.stderr]⟩

/-- Comparison key of a parsed datetime: its field encoding in seconds,
shifted to UTC by the offset when one is present.  On mutually comparable
Python values (all naive, or all offset-aware) this order agrees with
Python's `datetime` order used by the timestamp sort. -/
def dateKey (d : PyDateTime) : Int :=
  (((((d.year * 13 + d.month) * 32 + d.day) * 24 + d.hour) * 60
      + d.minute) * 60 + d.second : Int) - 60 * (d.offset.getD 0)

/-- The descending-timestamp order used by the export
(`df.sort_values(by="Date", ascending=False)`, source line 162). -/
def newerFirst (a b : Commit) : Prop := dateKey b.date ≤ dateKey a.date

instance : DecidableRel newerFirst := fun a b =>
  inferInstanceAs (Decidable (dateKey b.date ≤ dateKey a.date))

/-- Sorting of the merged commit list, newest first, modelling
`df.sort_values(by="Date", ascending=False)`. -/
def sortDesc (l : List Commit) : List Commit :=
  List.insertionSort newerFirst l

/-- One decimal digit character. -/
def digitChar : Nat → Char
  | 0 => '0' | 1 => '1' | 2 => '2' | 3 => '3' | 4 => '4'
  | 5 => '5' | 6 => '6' | 7 => '7' | 8 => '8' | 9 => '9'
  | _ => '0'

/-- Two-digit zero-padded rendering (`%m`, `%d`, `%H`, `%M`, `%S`). -/
def pad2 (n : Nat) : List Char := [digitChar (n / 10 % 10), digitChar (n % 10)]

/-- Four-digit zero-padded rendering (`%Y`; datetime years are ≤ 9999). -/
def pad4 (n : Nat) : List Char :=
  [digitChar (n / 1000 % 10), digitChar (n / 100 % 10),
   digitChar (n / 10 % 10), digitChar (n % 10)]

/-- `strftime("%Y-%m-%d %H:%M:%S")` (source line 165). -/
def strftimeDate (d : PyDateTime) : List Char :=
  pad4 d.year ++ '-' :: pad2 d.month ++ '-' :: pad2 d.day ++
    ' ' :: pad2 d.hour ++ ':' :: pad2 d.minute ++ ':' :: pad2 d.second

/-- One row of the exported three-column table. -/
structure Row where
  repository : List Char
  date : List Char
  commitMessage : List Char
deriving DecidableEq, Repr

/-- Rendering of one sorted commit into an output row. -/
def renderRow (c : Commit) : Row :=
  ⟨c.repo, strftimeDate c.date, c.message⟩

/-- The exported table (source lines 159–168): sort newest first, then
render each timestamp as `YYYY-MM-DD HH:MM:SS`. -/
def exportTable (commits : List Commit) : List Row :=
  (sortDesc commits).map renderRow

/-- Checker for the `YYYY-MM-DD HH:MM:SS` rendering: nineteen characters,
digits in the date/time positions, with `-`, a space and `:` separators. -/
def isTimestampFormat : List Char → Bool
  | [y1, y2, y3, y4, '-', m1, m2, '-', d1, d2, ' ',
     h1, h2, ':', n1, n2, ':', s1, s2] =>
    [y1, y2, y3, y4, m1, m2, d1, d2, h1, h2, n1, n2, s1, s2].all Char.isDigit
  | _ => false

/-- One discovered repository together with its environment behavior: the
repository's display name (path relative to the scan root), whether it has a
`.git` directory, and the subprocess oracle for commands run inside it. -/
structure RepoInput where
  name : List Char
  isGit : Bool
  run : List (List Char) → ProcResult

/-- Insertion into the model of a Python `set` held as a duplicate-free
list: already-present elements are not added again. -/
def setInsert (s : List (List Char)) (a : List Char) : List (List Char) :=
  if a ∈ s then s else s ++ [a]

/-- `set.update` (source line 148): fold insertion over the new elements. -/
def setUnion (s : List (List Char)) (as : List (List Char)) : List (List Char) :=
  as.foldl setInsert s

/-- The commits contributed by one repository in the orchestrator loop. -/
def commitsOfRepo (usernames : List (List Char))
    (start_date end_date : Option (List Char)) (r : RepoInput) : List Commit :=
  (get_commit_history r.name r.isGit usernames start_date end_date r.run).commits

/-- The author set contributed by one repository in the orchestrator loop. -/
def authorsOfRepo (usernames : List (List Char))
    (start_date end_date : Option (List Char)) (r : RepoInput) : List (List Char) :=
  (get_commit_history r.name r.isGit usernames start_date end_date r.run).authors

/-- `all_commits` after the loop of source lines 143–148: repeated
`extend`. -/
def allCommitsOf (usernames : List (List Char))
    (start_date end_date : Option (List Char)) (repos : List RepoInput) :
    List Commit :=
  repos.foldl (fun acc r => acc ++ commitsOfRepo usernames start_date end_date r) []

/-- `all_unique_authors` after the loop of source lines 143–148: repeated
`set.update`. -/
def allAuthorsOf (usernames : List (List Char))
    (start_date end_date : Option (List Char)) (repos : List RepoInput) :
    List (List Char) :=
  repos.foldl (fun acc r => setUnion acc (authorsOfRepo usernames start_date end_date r)) []

/-- Observable outcome of a run of `collect_all_commits`: the merged commit
list, the accumulated author set, the exported table (`none` when the
spreadsheet write is skipped) and the console messages. -/
structure CollectResult where
  allCommits : List Commit
  allAuthors : List (List Char)
  exported : Option (List Row)
  msgs : List Msg

/-- Embedding of `collect_all_commits` (source lines 125–173) over an
already-discovered repository list: accumulate commits and authors, print
progress and the summary, and export the sorted, formatted table only when
the merged commit list is non-empty. -/
def collect_all_commits (usernames : List (List Char))
    (start_date end_date : Option (List Char)) (repos : List RepoInput) :
    CollectResult :=
  let allCommits := allCommitsOf usernames start_date end_date repos
  let allAuthors := allAuthorsOf usernames start_date end_date repos
  { allCommits := allCommits
    allAuthors := allAuthors
    exported := if allCommits = [] then none else some (exportTable allCommits)
    msgs :=
      [Msg.collectingRange start_date end_date, Msg.lookingFor usernames,
       Msg.foundRepos repos.length] ++
      repos.flatMap (fun r =>
        Msg.processingRepo r.name ::
          (get_commit_history r.name r.isGit usernames start_date end_date r.run).msgs) ++
      [Msg.summaryAuthors allAuthors, Msg.summaryUsernames usernames] ++
      (if allCommits = [] then [Msg.noCommitsFound, Msg.checkUsernames]
       else [Msg.exportedTo, Msg.totalCommits allCommits.length]) }

/-- A directory tree: the (named) subdirectories of one directory.  Plain
files are irrelevant to `find_git_repos` and are not modelled. -/
inductive DirTree : Type where
  | node : List (String × DirTree) → DirTree
deriving Inhabited

/-- The subdirectory list of a directory. -/
def DirTree.children : DirTree → List (String × DirTree)
  | node cs => cs

/-- The directory name skipped by the walker (source line 112):
`os.path.basename(OUTPUT_EXCEL).split(".")[0]` with
`OUTPUT_EXCEL = os.path.join(REPOS_DIR, "commit_history.xlsx")`, i.e. the
first dot-separated piece of `commit_history.xlsx`. -/
def outputDirName : String := "commit_history"

theorem sizeOf_snd_lt_of_mem {cs : List (String × DirTree)}
    {c : String × DirTree} (h : c ∈ cs) :
    sizeOf c.2 < sizeOf (DirTree.node cs) := by
  have h1 : sizeOf c < sizeOf cs := List.sizeOf_lt_of_mem h
  obtain ⟨n, t⟩ := c
  simp only [DirTree.node.sizeOf_spec]
  simp only [Prod.mk.sizeOf_spec] at h1
  omega

/-- The body of the `os.walk` loop of `find_git_repos` (source lines
110–120), specialised to top-down traversal: at directory `path ++ [name]`
with subdirectory tree `t`, skip the append when the directory is named
`outputDirName` (the `continue` also skips the `.git` pruning), otherwise
append the directory when it has a `.git` subdirectory, and in that case
remove the first `.git` entry from the list of subdirectories to descend
into (`dirs.remove(".git")`). -/
def fgrAux (path : List String) (name : String) : DirTree → List (List String)
  | DirTree.node cs =>
    let p := path ++ [name]
    let dirNames := cs.map Prod.fst
    let here : List (List String) :=
      if name = outputDirName then []
      else if ".git" ∈ dirNames then [p] else []
    let sub : List (String × DirTree) :=
      if name = outputDirName then cs
      else if ".git" ∈ dirNames then cs.eraseP (fun c => c.1 == ".git") else cs
    here ++ sub.attach.flatMap (fun c => fgrAux p c.1.1 c.1.2)
termination_by t => sizeOf t
decreasing_by
  cases c with
  | mk c hc =>
    refine @sizeOf_snd_lt_of_mem cs _ ?_
    have hsub : sub ⊆ cs := by
      simp only [sub]
      split
      · exact fun x hx => hx
      · split
        · exact fun x hx => (List.eraseP_sublist _).mem hx
        · exact fun x hx => hx
    exact hsub hc

/-- Embedding of `find_git_repos` (source lines 97–122): walk the tree
rooted at the base directory (whose own name is `baseName`) and return the
paths appended by the loop body, as component lists starting with
`baseName`. -/
def find_git_repos (baseName : String) (t : DirTree) : List (List String) :=
  fgrAux [] baseName t

/-- Subtree lookup along a relative path, resolving each component against
the subdirectory list as the filesystem does. -/
def nodeAt : DirTree → List String → Option DirTree
  | t, [] => some t
  | t, n :: rest =>
    match t.children.find? (fun c => c.1 == n) with
    | some c => nodeAt c.2 rest
    | none => none

/-- Whether a directory has a `.git` subdirectory. -/
def hasGitChild (t : DirTree) : Bool :=
  (t.children.map Prod.fst).contains ".git"

/-- Boolean duplicate-freedom of a name list. -/
def nodupB : List String → Bool
  | [] => true
  | x :: xs => (!xs.contains x) && nodupB xs

/-- Filesystem well-formedness of a tree: sibling directory names are
distinct, recursively. -/
def wfB : DirTree → Bool
  | DirTree.node cs =>
    nodupB (cs.map Prod.fst) && cs.attach.all (fun c => wfB c.1.2)
termination_by t => sizeOf t
decreasing_by
  cases c with
  | mk c hc => exact sizeOf_snd_lt_of_mem hc

/-- The relative paths (below a directory named `name` with tree `t`) that
the walk appends: either this directory itself qualifies, or the walk
descends into a child — never into a `.git` child, except that a directory
named `outputDirName` skips the pruning together with the append. -/
inductive Ret : String → DirTree → List String → Prop where
  | here {name : String} {t : DirTree} :
      name ≠ outputDirName → hasGitChild t = true → Ret name t []
  | step {name : String} {t : DirTree} {rel : List String}
      (x : String) (c : String × DirTree) :
      c ∈ t.children → c.1 = x → (x = ".git" → name = outputDirName) →
      Ret x c.2 rel → Ret name t (x :: rel)

theorem splitFirst_append {sep : Char} (t r : List Char) (h : sep ∉ t) :
    splitFirst sep (t ++ sep :: r) = some (t, r) := by
  induction t with
  | nil => simp [splitFirst]
  | cons c cs ih =>
    have hc : ¬ c = sep := fun e => h (e ▸ List.mem_cons_self c cs)
    have ih' := ih (fun hm => h (List.mem_cons_of_mem _ hm))
    simp [splitFirst, hc, ih']

theorem pySplit2_three (t a m : List Char) (ht : ',' ∉ t) (ha : ',' ∉ a) :
    pySplit2 (t ++ ',' :: (a ++ ',' :: m)) = [t, a, m] := by
  simp [pySplit2, splitFirst_append t (a ++ ',' :: m) ht, splitFirst_append a m ha]

theorem isDigit_of_parseDigit {c : Char} {n : Nat}
    (h : parseDigit c = some n) : c.isDigit = true := by
  unfold parseDigit at h
  split at h
  · assumption
  · exact absurd h (by simp)

theorem beq_T_eq_false_of_digit {c : Char} (h : c.isDigit = true) :
    (c == 'T') = false := by
  cases hc : c == 'T'
  · rfl
  · have hcT : c = 'T' := eq_of_beq hc
    rw [hcT] at h
    exact absurd h (by decide)

theorem count_T_cons_of_digit {c : Char} {l : List Char}
    (h : c.isDigit = true) : (c :: l).count 'T' = l.count 'T' := by
  rw [List.count_cons, beq_T_eq_false_of_digit h]
  simp

theorem parse2_count_T {l r : List Char} {n : Nat}
    (h : parse2 l = some (n, r)) : l.count 'T' = r.count 'T' := by
  match l with
  | [] => simp [parse2] at h
  | [c] => simp [parse2] at h
  | c1 :: c2 :: rest =>
    simp only [parse2] at h
    cases h1 : parseDigit c1 with
    | none => rw [h1] at h; simp at h
    | some a =>
      cases h2 : parseDigit c2 with
      | none => rw [h1, h2] at h; simp at h
      | some b =>
        rw [h1, h2] at h
        simp only [Option.bind_eq_bind, Option.some_bind, Option.pure_def, Option.some.injEq, Prod.mk.injEq] at h
        rw [count_T_cons_of_digit (isDigit_of_parseDigit h1),
            count_T_cons_of_digit (isDigit_of_parseDigit h2), h.2]

theorem parse4_count_T {l r : List Char} {n : Nat}
    (h : parse4 l = some (n, r)) : l.count 'T' = r.count 'T' := by
  match l with
  | [] => simp [parse4] at h
  | [c] => simp [parse4] at h
  | [c, c'] => simp [parse4] at h
  | [c, c', c''] => simp [parse4] at h
  | c1 :: c2 :: c3 :: c4 :: rest =>
    simp only [parse4] at h
    cases h1 : parseDigit c1 with
    | none => rw [h1] at h; simp at h
    | some a =>
      cases h2 : parseDigit c2 with
      | none => rw [h1, h2] at h; simp at h
      | some b =>
        cases h3 : parseDigit c3 with
        | none => rw [h1, h2, h3] at h; simp at h
        | some e =>
          cases h4 : parseDigit c4 with
          | none => rw [h1, h2, h3, h4] at h; simp at h
          | some f =>
            rw [h1, h2, h3, h4] at h
            simp only [Option.bind_eq_bind, Option.some_bind, Option.pure_def, Option.some.injEq, Prod.mk.injEq] at h
            rw [count_T_cons_of_digit (isDigit_of_parseDigit h1),
                count_T_cons_of_digit (isDigit_of_parseDigit h2),
                count_T_cons_of_digit (isDigit_of_parseDigit h3),
                count_T_cons_of_digit (isDigit_of_parseDigit h4), h.2]

theorem expectChar_count_T {ch : Char} {l r : List Char}
    (hch : (ch == 'T') = false) (h : expectChar ch l = some r) :
    l.count 'T' = r.count 'T' := by
  match l with
  | [] => simp [expectChar] at h
  | x :: rest =>
    simp only [expectChar] at h
    split at h
    · rename_i hx
      obtain rfl := Option.some.inj h
      subst hx
      rw [List.count_cons, hch]
      simp
    · exact absurd h (by simp)

theorem parseTimePart_count_T {l r : List Char} {h mi s : Nat}
    (hp : parseTimePart l = some (h, mi, s, r)) : l.count 'T' = r.count 'T' := by
  simp only [parseTimePart] at hp
  cases h1 : parse2 l with
  | none => rw [h1] at hp; simp at hp
  | some p1 =>
    obtain ⟨hh, r1⟩ := p1
    rw [h1] at hp
    simp only [Option.bind_eq_bind, Option.some_bind] at hp
    cases h2 : expectChar ':' r1 with
    | none => rw [h2] at hp; simp at hp
    | some r2 =>
      rw [h2] at hp
      simp only [Option.bind_eq_bind, Option.some_bind] at hp
      cases h3 : parse2 r2 with
      | none => rw [h3] at hp; simp at hp
      | some p2 =>
        obtain ⟨mm, r3⟩ := p2
        rw [h3] at hp
        simp only [Option.bind_eq_bind, Option.some_bind] at hp
        have e1 : l.count 'T' = r3.count 'T' := by
          rw [parse2_count_T h1, expectChar_count_T (by decide) h2,
              parse2_count_T h3]
        cases h4 : expectChar ':' r3 with
        | none =>
          rw [h4] at hp
          simp only [Option.pure_def, Option.some.injEq, Prod.mk.injEq] at hp
          rw [e1, hp.2.2.2]
        | some r4 =>
          rw [h4] at hp
          simp only [Option.bind_eq_bind] at hp
          cases h5 : parse2 r4 with
          | none => rw [h5] at hp; simp at hp
          | some p3 =>
            obtain ⟨ss, r5⟩ := p3
            rw [h5] at hp
            simp only [Option.some_bind, Option.pure_def, Option.some.injEq,
              Prod.mk.injEq] at hp
            rw [e1, expectChar_count_T (by decide) h4, parse2_count_T h5, hp.2.2.2]

set_option maxHeartbeats 1000000 in
theorem count_T_le_one_of_fromiso {l : List Char} {d : PyDateTime}
    (h : pyFromisoformat l = some d) : l.count 'T' ≤ 1 := by
  simp only [pyFromisoformat] at h
  cases h1 : parse4 l with
  | none => rw [h1] at h; simp at h
  | some p1 =>
    obtain ⟨y, r1⟩ := p1
    rw [h1] at h
    simp only [Option.bind_eq_bind, Option.some_bind] at h
    cases h2 : expectChar '-' r1 with
    | none => rw [h2] at h; simp at h
    | some r2 =>
      rw [h2] at h
      simp only [Option.bind_eq_bind, Option.some_bind] at h
      cases h3 : parse2 r2 with
      | none => rw [h3] at h; simp at h
      | some p2 =>
        obtain ⟨mo, r3⟩ := p2
        rw [h3] at h
        simp only [Option.bind_eq_bind, Option.some_bind] at h
        cases h4 : expectChar '-' r3 with
        | none => rw [h4] at h; simp at h
        | some r4 =>
          rw [h4] at h
          simp only [Option.bind_eq_bind, Option.some_bind] at h
          cases h5 : parse2 r4 with
          | none => rw [h5] at h; simp at h
          | some p3 =>
            obtain ⟨dd, r5⟩ := p3
            rw [h5] at h
            simp only [Option.bind_eq_bind, Option.some_bind] at h
            have e1 : l.count 'T' = r5.count 'T' := by
              rw [parse4_count_T h1, expectChar_count_T (by decide) h2,
                  parse2_count_T h3, expectChar_count_T (by decide) h4,
                  parse2_count_T h5]
            rw [e1]
            split at h
            · cases r5 with
              | nil => simp
              | cons sep rest =>
                simp only [Option.bind_eq_bind] at h
                cases h6 : parseTimePart rest with
                | none => rw [h6] at h; simp at h
                | some p4 =>
                  obtain ⟨hh, mi, ss, r6⟩ := p4
                  rw [h6] at h
                  simp only [Option.some_bind] at h
                  have e2 : rest.count 'T' = r6.count 'T' := parseTimePart_count_T h6
                  have goal2 : rest.count 'T' = 0 := by
                    split at h
                    · split at h
                      · rw [e2]; simp
                      · rename_i c r7
                        split at h
                        · rename_i hpm
                          cases h7 : parse2 r7 with
                          | none => rw [h7] at h; simp at h
                          | some p5 =>
                            obtain ⟨oh, r8⟩ := p5
                            rw [h7] at h
                            simp only [Option.bind_eq_bind, Option.some_bind] at h
                            cases h8 : expectChar ':' r8 with
                            | none => rw [h8] at h; simp at h
                            | some r9 =>
                              rw [h8] at h
                              simp only [Option.bind_eq_bind, Option.some_bind] at h
                              cases h9 : parse2 r9 with
                              | none => rw [h9] at h; simp at h
                              | some p6 =>
                                obtain ⟨om, r10⟩ := p6
                                rw [h9] at h
                                simp only [Option.bind_eq_bind, Option.some_bind] at h
                                split at h
                                · rename_i hrange
                                  have hr10 : r10 = [] := hrange.2.2
                                  have hcT : (c == 'T') = false := by
                                    rcases hpm with hc | hc <;> rw [hc] <;> decide
                                  rw [e2, List.count_cons, hcT, parse2_count_T h7,
                                      expectChar_count_T (by decide) h8,
                                      parse2_count_T h9, hr10]
                                  simp
                                · exact absurd h (by simp)
                        · exact absurd h (by simp)
                    · exact absurd h (by simp)
                  rw [List.count_cons, goal2]
                  split <;> simp
            · exact absurd h (by simp)

theorem count_T_replaceChar (l : List Char) :
    (pyReplaceChar ' ' 'T' l).count 'T' = l.count ' ' + l.count 'T' := by
  induction l with
  | nil => simp [pyReplaceChar]
  | cons c cs ih =>
    by_cases hc : c = ' '
    · subst hc
      simp only [pyReplaceChar, List.map_cons, if_pos rfl] at *
      rw [List.count_cons, List.count_cons, List.count_cons, ih]
      simp
      omega
    · simp only [pyReplaceChar, List.map_cons, if_neg hc] at *
      rw [List.count_cons, List.count_cons, List.count_cons, ih]
      have hcs : (c == ' ') = false := by simp [hc]
      rw [hcs]
      simp
      omega

theorem count_T_replaceZ (l : List Char) :
    (pyReplaceZ l).count 'T' = l.count 'T' := by
  induction l with
  | nil => simp [pyReplaceZ]
  | cons c cs ih =>
    simp only [pyReplaceZ, List.flatMap_cons, List.count_append] at *
    rw [ih, List.count_cons]
    by_cases hc : c = 'Z'
    · subst hc
      simp
    · have hcs : (c == 'Z') = false := by simp [hc]
      have hcT : (if c = 'Z' then ['+', '0', '0', ':', '0', '0'] else [c]) = [c] := by
        simp [hc]
      rw [hcT]
      rw [List.count_cons]
      simp [List.count_nil]
      omega

theorem count_T_normalize (l : List Char) :
    (pyNormalizeTs l).count 'T' = l.count ' ' + l.count 'T' := by
  rw [pyNormalizeTs, count_T_replaceZ, count_T_replaceChar]

theorem fromiso_none_of_two_spaces {ts : List Char} (h : 2 ≤ ts.count ' ') :
    pyFromisoformat (pyNormalizeTs ts) = none := by
  cases hp : pyFromisoformat (pyNormalizeTs ts) with
  | none => rfl
  | some d =>
    have hle := count_T_le_one_of_fromiso hp
    rw [count_T_normalize] at hle
    omega

theorem space_count_le_one_of_fromiso {ts : List Char} {d : PyDateTime}
    (h : pyFromisoformat (pyNormalizeTs ts) = some d) : ts.count ' ' ≤ 1 := by
  have hle := count_T_le_one_of_fromiso h
  rw [count_T_normalize] at hle
  omega

theorem isDigit_digitChar (n : Nat) : (digitChar n).isDigit = true := by
  match n with
  | 0 | 1 | 2 | 3 | 4 | 5 | 6 | 7 | 8 | 9 => decide
  | n + 10 => exact show ('0').isDigit = true by decide

theorem isTimestampFormat_strftime (d : PyDateTime) :
    isTimestampFormat (strftimeDate d) = true := by
  show isTimestampFormat
    (pad4 d.year ++ '-' :: pad2 d.month ++ '-' :: pad2 d.day ++
      ' ' :: pad2 d.hour ++ ':' :: pad2 d.minute ++ ':' :: pad2 d.second) = true
  simp only [pad4, pad2, List.cons_append, List.nil_append]
  simp only [isTimestampFormat, List.all_cons, List.all_nil, Bool.and_true]
  simp [isDigit_digitChar]

instance : IsTotal Commit newerFirst :=
  ⟨fun a b => le_total (dateKey b.date) (dateKey a.date)⟩

instance : IsTrans Commit newerFirst :=
  ⟨fun _ _ _ hab hbc => le_trans hbc hab⟩

theorem sortDesc_perm (l : List Commit) : List.Perm (sortDesc l) l :=
  List.perm_insertionSort newerFirst l

theorem sortDesc_pairwise (l : List Commit) :
    (sortDesc l).Pairwise newerFirst :=
  List.sorted_insertionSort newerFirst l

theorem foldl_append_eq_flatMap {α β : Type} (f : α → List β)
    (repos : List α) (init : List β) :
    repos.foldl (fun acc r => acc ++ f r) init = init ++ repos.flatMap f := by
  induction repos generalizing init with
  | nil => simp
  | cons r rs ih => simp [List.foldl_cons, ih, List.flatMap_cons]

theorem allCommitsOf_eq_flatMap (us : List (List Char))
    (sd ed : Option (List Char)) (repos : List RepoInput) :
    allCommitsOf us sd ed repos = repos.flatMap (commitsOfRepo us sd ed) := by
  simpa using foldl_append_eq_flatMap (commitsOfRepo us sd ed) repos []

theorem mem_setInsert {s : List (List Char)} {a b : List Char} :
    b ∈ setInsert s a ↔ b ∈ s ∨ b = a := by
  unfold setInsert
  split
  · rename_i ha
    constructor
    · exact fun h => Or.inl h
    · rintro (h | rfl)
      · exact h
      · exact ha
  · simp

theorem mem_setUnion {s as : List (List Char)} {b : List Char} :
    b ∈ setUnion s as ↔ b ∈ s ∨ b ∈ as := by
  induction as generalizing s with
  | nil => simp [setUnion]
  | cons a rest ih =>
    show b ∈ setUnion (setInsert s a) rest ↔ _
    rw [ih, mem_setInsert]
    simp [or_assoc, List.mem_cons]

theorem mem_allAuthorsOf {us : List (List Char)} {sd ed : Option (List Char)}
    {repos : List RepoInput} {a : List Char} :
    a ∈ allAuthorsOf us sd ed repos ↔
      ∃ r ∈ repos, a ∈ authorsOfRepo us sd ed r := by
  have general : ∀ (rs : List RepoInput) (init : List (List Char)),
      a ∈ rs.foldl (fun acc r => setUnion acc (authorsOfRepo us sd ed r)) init ↔
        a ∈ init ∨ ∃ r ∈ rs, a ∈ authorsOfRepo us sd ed r := by
    intro rs
    induction rs with
    | nil => simp
    | cons r rest ih =>
      intro init
      rw [List.foldl_cons, ih, mem_setUnion]
      simp [or_assoc]
  rw [allAuthorsOf, general]
  simp

theorem mem_authorsOfRepo {us : List (List Char)} {sd ed : Option (List Char)}
    {r : RepoInput} {a : List Char} :
    a ∈ authorsOfRepo us sd ed r ↔
      r.isGit = true ∧ (r.run all_authors_cmd).returncode = 0 ∧
        a ∈ (r.run all_authors_cmd).stdout := by
  unfold authorsOfRepo get_commit_history
  cases hg : r.isGit with
  | false => simp
  | true =>
    by_cases ha : (r.run all_authors_cmd).returncode = 0 <;>
      by_cases hl : (r.run (gitLogCmd sd ed)).returncode = 0 <;>
        simp [ha, hl, List.mem_dedup]

theorem commitsOfRepo_eq_filterMap {us : List (List Char)}
    {sd ed : Option (List Char)} {r : RepoInput} (hg : r.isGit = true)
    (hrc : (r.run (gitLogCmd sd ed)).returncode = 0) :
    commitsOfRepo us sd ed r =
      (r.run (gitLogCmd sd ed)).stdout.filterMap (parseLine r.name us) := by
  unfold commitsOfRepo get_commit_history
  rw [hg]
  simp only [Bool.true_eq_false, if_false]
  rw [if_pos hrc]

theorem commitsOfRepo_eq_nil_of_fail {us : List (List Char)}
    {sd ed : Option (List Char)} {r : RepoInput}
    (hrc : (r.run (gitLogCmd sd ed)).returncode ≠ 0) :
    commitsOfRepo us sd ed r = [] := by
  unfold commitsOfRepo get_commit_history
  cases hg : r.isGit with
  | false => simp
  | true =>
    simp only [Bool.true_eq_false, if_false]
    rw [if_neg hrc]

theorem isPrefixOf_append_self (l t : List Char) :
    l.isPrefixOf (l ++ t) = true := by
  induction l with
  | nil => simp [List.isPrefixOf]
  | cons c cs ih => simp [List.isPrefixOf, ih]

theorem parseLine_eq_none_of_no_match {repo line : List Char}
    {us : List (List Char)}
    (h : ∀ t a m, pySplit2 line = [t, a, m] → matchesAny us a = false) :
    parseLine repo us line = none := by
  unfold parseLine
  rcases hps : pySplit2 line with _ | ⟨x, _ | ⟨y, _ | ⟨z, _ | ⟨w, ws⟩⟩⟩⟩
  · rfl
  · rfl
  · rfl
  · cases hiso : pyFromisoformat (pyNormalizeTs x) with
    | none => simp [hiso]
    | some d => simp [hiso, h x y z hps]
  · rfl

/-- Claim C1: a parsed commit record (three fields, valid timestamp) is kept
if and only if its author string contains, case-insensitively, at least one
of the configured identity substrings. -/
theorem commit_kept_iff_author_matches (repo : List Char)
    (us : List (List Char)) (line t a m : List Char) (d : PyDateTime)
    (h1 : pySplit2 line = [t, a, m])
    (h2 : pyFromisoformat (pyNormalizeTs t) = some d) :
    parseLine repo us line = some ⟨repo, d, m⟩ ↔ matchesAny us a = true := by
  simp only [parseLine, h1, h2]
  by_cases hm : matchesAny us a = true
  · simp [hm]
  · simp [hm]

/-- Claim C1 witness: with identity filter `["Alice"]` and author
`"alice-dev"`, the commit is matched and kept. -/
theorem commit_kept_iff_author_matches_witness :
    parseLine ("repoA".toList) ["Alice".toList]
      ("2024-01-05 12:00:00,alice-dev,hello".toList) =
      some ⟨"repoA".toList, ⟨2024, 1, 5, 12, 0, 0, none⟩, "hello".toList⟩ :=
  (commit_kept_iff_author_matches ("repoA".toList) ["Alice".toList]
    ("2024-01-05 12:00:00,alice-dev,hello".toList)
    ("2024-01-05 12:00:00".toList) ("alice-dev".toList) ("hello".toList)
    ⟨2024, 1, 5, 12, 0, 0, none⟩ (by decide) (by decide)).mpr (by decide)

/-- Claim C4: splitting on only the first two commas preserves a subject
containing commas verbatim: the stored message field is exactly the line
with its first two comma-delimited fields and those two commas removed. -/
theorem subject_with_commas_preserved (repo : List Char)
    (us : List (List Char)) (t a m : List Char)
    (ht : ',' ∉ t) (ha : ',' ∉ a) :
    pySplit2 (t ++ ',' :: (a ++ ',' :: m)) = [t, a, m] ∧
    ∀ c, parseLine repo us (t ++ ',' :: (a ++ ',' :: m)) = some c →
      c.message = m := by
  have hs := pySplit2_three t a m ht ha
  refine ⟨hs, ?_⟩
  intro c hc
  simp only [parseLine, hs] at hc
  cases hp : pyFromisoformat (pyNormalizeTs t) with
  | none => rw [hp] at hc; simp at hc
  | some d =>
    rw [hp] at hc
    dsimp only at hc
    split at hc
    · cases hc
      rfl
    · exact absurd hc (by simp)

/-- Claim C4 witness: the subject `"fix: a, b, c"` survives the split
verbatim. -/
theorem subject_with_commas_preserved_witness :
    pySplit2 ("2024-01-01 10:00:00".toList ++
        ',' :: ("alice".toList ++ ',' :: "fix: a, b, c".toList)) =
      ["2024-01-01 10:00:00".toList, "alice".toList, "fix: a, b, c".toList] :=
  (subject_with_commas_preserved ("r".toList) ["alice".toList]
    ("2024-01-01 10:00:00".toList) ("alice".toList) ("fix: a, b, c".toList)
    (by decide) (by decide)).1

/-- Claim C5 (amended): a timestamp field containing more than one space
never parses — after every space is replaced by `'T'` the result is rejected
— so the line is silently dropped even when its author matches; and a
successful parse requires at most one space (not exactly one: zero-space
timestamps such as a bare date also parse). -/
theorem multi_space_timestamp_dropped (ts : List Char) :
    (2 ≤ ts.count ' ' →
      pyFromisoformat (pyNormalizeTs ts) = none ∧
      ∀ repo us line a m, pySplit2 line = [ts, a, m] →
        parseLine repo us line = none) ∧
    (∀ d, pyFromisoformat (pyNormalizeTs ts) = some d → ts.count ' ' ≤ 1) := by
  constructor
  · intro h2
    have hn := fromiso_none_of_two_spaces h2
    refine ⟨hn, ?_⟩
    intro repo us line a m hsplit
    simp only [parseLine, hsplit, hn]
  · intro d hd
    exact space_count_le_one_of_fromiso hd

/-- Claim C5 witness: git's ISO format with a space-separated zone offset
(two spaces) is rejected, so such a line is dropped even for a matching
author. -/
theorem multi_space_timestamp_dropped_witness :
    pyFromisoformat (pyNormalizeTs ("2024-01-01 10:00:00 +0530".toList)) = none ∧
    parseLine ("r".toList) ["alice".toList]
      ("2024-01-01 10:00:00 +0530,alice,fix".toList) = none := by
  have h := (multi_space_timestamp_dropped ("2024-01-01 10:00:00 +0530".toList)).1
    (by decide)
  exact ⟨h.1, h.2 ("r".toList) ["alice".toList]
    ("2024-01-01 10:00:00 +0530,alice,fix".toList) ("alice".toList)
    ("fix".toList) (by decide)⟩

/-- Claim C5 counterexample: a timestamp with zero spaces (a bare date)
parses successfully, refuting "only timestamps with exactly one space …
parse successfully". -/
theorem zero_space_timestamp_parses :
    pyFromisoformat (pyNormalizeTs ("2024-01-01".toList)) =
      some ⟨2024, 1, 1, 0, 0, 0, none⟩ ∧
    ("2024-01-01".toList).count ' ' = 0 := by decide

/-- Claim C3: the `--since`/`--until` date-bound flags are appended to the
commit query if and only if both a start and an end date are supplied
(truthy); with exactly one of them, no date bound at all is applied and the
command is the unbounded base command. -/
theorem date_bounds_iff_both_supplied (sd ed : Option (List Char)) :
    hasDateBound (gitLogCmd sd ed) = (pyTruthy sd && pyTruthy ed) ∧
    ((pyTruthy sd = false ∨ pyTruthy ed = false) →
      gitLogCmd sd ed = base_git_cmd) := by
  constructor
  · unfold gitLogCmd
    cases hb : (pyTruthy sd && pyTruthy ed) with
    | false =>
      simp only [hb, Bool.false_eq_true, if_false]
      decide
    | true =>
      simp only [hb, if_true]
      unfold hasDateBound
      rw [List.any_append]
      have h1 : base_git_cmd.any
          (fun a => "--since=".toList.isPrefixOf a ||
            "--until=".toList.isPrefixOf a) = false := by decide
      rw [h1]
      simp [sinceArg, untilArg, isPrefixOf_append_self]
  · intro h
    unfold gitLogCmd
    have hb : (pyTruthy sd && pyTruthy ed) = false := by
      rcases h with h | h <;> simp [h]
    simp [hb]

/-- Claim C3 witness: with only a start date supplied, the issued command is
exactly the unbounded base command. -/
theorem date_bounds_iff_both_supplied_witness :
    gitLogCmd (some ("2024-01-01".toList)) none = base_git_cmd :=
  (date_bounds_iff_both_supplied (some ("2024-01-01".toList)) none).2
    (Or.inr rfl)

/-- Claim C6: a log line that does not split into exactly three fields, or
whose timestamp fails to parse, is dropped silently and does not disturb the
processing of the surrounding lines. -/
theorem malformed_line_dropped_silently (repo : List Char)
    (us : List (List Char)) (line : List Char)
    (h : (pySplit2 line).length ≠ 3 ∨
      ∃ t a m, pySplit2 line = [t, a, m] ∧
        pyFromisoformat (pyNormalizeTs t) = none) :
    parseLine repo us line = none ∧
    ∀ pre post : List (List Char),
      (pre ++ line :: post).filterMap (parseLine repo us) =
        pre.filterMap (parseLine repo us) ++
          post.filterMap (parseLine repo us) := by
  have hnone : parseLine repo us line = none := by
    rcases h with hlen | ⟨t, a, m, hsp, hiso⟩
    · unfold parseLine
      rcases hps : pySplit2 line with _ | ⟨x, _ | ⟨y, _ | ⟨z, _ | ⟨w, ws⟩⟩⟩⟩
      · rfl
      · rfl
      · rfl
      · rw [hps] at hlen; simp at hlen
      · rfl
    · simp only [parseLine, hsp, hiso]
  refine ⟨hnone, fun pre post => ?_⟩
  rw [List.filterMap_append]
  simp [List.filterMap_cons, hnone]

/-- Claim C6 witness: a line with no commas is dropped, and the lines before
and after it are processed as if it were absent. -/
theorem malformed_line_dropped_silently_witness :
    parseLine ("r".toList) [] ("no commas here".toList) = none ∧
    (["2024-01-05 12:00:00,bob,x".toList] ++ "no commas here".toList ::
        ["2024-01-06 12:00:00,bob,y".toList]).filterMap
          (parseLine ("r".toList) []) =
      (["2024-01-05 12:00:00,bob,x".toList]).filterMap
          (parseLine ("r".toList) []) ++
        (["2024-01-06 12:00:00,bob,y".toList]).filterMap
          (parseLine ("r".toList) []) := by
  have h := malformed_line_dropped_silently ("r".toList) []
    ("no commas here".toList) (Or.inl (by decide))
  exact ⟨h.1, h.2 _ _⟩

/-- Convenience oracle for concrete test repositories: answer the author
query with `aRes` and any other command (the commit-log query) with
`lRes`. -/
def oracleOf (aRes lRes : ProcResult) : List (List Char) → ProcResult :=
  fun cmd => if cmd = all_authors_cmd then aRes else lRes

/-- Claim C7: when the merged commit list is empty, the spreadsheet write is
skipped, the run reports that no matching commits were found, and the full
set of observed author names is reported. -/
theorem empty_commits_skip_export (us : List (List Char))
    (sd ed : Option (List Char)) (repos : List RepoInput)
    (h : allCommitsOf us sd ed repos = []) :
    (collect_all_commits us sd ed repos).exported = none ∧
    Msg.noCommitsFound ∈ (collect_all_commits us sd ed repos).msgs ∧
    Msg.summaryAuthors (allAuthorsOf us sd ed repos) ∈
      (collect_all_commits us sd ed repos).msgs ∧
    ∀ a, a ∈ allAuthorsOf us sd ed repos ↔
      ∃ r ∈ repos, r.isGit = true ∧ (r.run all_authors_cmd).returncode = 0 ∧
        a ∈ (r.run all_authors_cmd).stdout := by
  refine ⟨?_, ?_, ?_, fun a => ?_⟩
  · simp [collect_all_commits, h]
  · simp [collect_all_commits, h]
  · simp [collect_all_commits, h]
  · rw [mem_allAuthorsOf]
    constructor
    · rintro ⟨r, hr, hm⟩
      rw [mem_authorsOfRepo] at hm
      exact ⟨r, hr, hm⟩
    · rintro ⟨r, hr, hm⟩
      exact ⟨r, hr, mem_authorsOfRepo.mpr hm⟩

/-- A repository with history by `bob` only and no commits in the log
query's output. -/
def emptyDemoRepo : RepoInput :=
  ⟨"r".toList, true, oracleOf ⟨0, ["bob".toList], []⟩ ⟨0, [], []⟩⟩

/-- Claim C7 witness: with zero merged commits, nothing is exported and the
no-commits report is emitted. -/
theorem empty_commits_skip_export_witness :
    (collect_all_commits [] none none [emptyDemoRepo]).exported = none ∧
    Msg.noCommitsFound ∈ (collect_all_commits [] none none [emptyDemoRepo]).msgs := by
  have h := empty_commits_skip_export [] none none [emptyDemoRepo] (by decide)
  exact ⟨h.1, h.2.1⟩

/-- Claim C8: a failing commit-log subprocess yields an empty commit list
for that repository and a diagnostic message, and the orchestrator's merged
commit list is exactly the merge over the remaining repositories. -/
theorem failing_query_skipped (us : List (List Char))
    (sd ed : Option (List Char)) (name : List Char)
    (run : List (List Char) → ProcResult)
    (h : (run (gitLogCmd sd ed)).returncode ≠ 0) :
    (get_commit_history name true us sd ed run).commits = [] ∧
    Msg.errorGitLog (run (gitLogCmd sd ed)).stderr ∈
      (get_commit_history name true us sd ed run).msgs ∧
    ∀ pre post : List RepoInput, ∀ r : RepoInput,
      r.isGit = true → r.run = run →
      allCommitsOf us sd ed (pre ++ r :: post) =
        allCommitsOf us sd ed pre ++ allCommitsOf us sd ed post := by
  refine ⟨?_, ?_, ?_⟩
  · simp [get_commit_history, h]
  · simp [get_commit_history, h]
  · intro pre post r hg hr
    rw [allCommitsOf_eq_flatMap, allCommitsOf_eq_flatMap,
        allCommitsOf_eq_flatMap, List.flatMap_append, List.flatMap_cons]
    have hz : commitsOfRepo us sd ed r = [] :=
      commitsOfRepo_eq_nil_of_fail (by rw [hr]; exact h)
    rw [hz]
    simp

/-- A repository whose commit-log query fails with return code 1. -/
def failingDemoRepo : RepoInput :=
  ⟨"r".toList, true, oracleOf ⟨0, ["bob".toList], []⟩ ⟨1, [], "boom".toList⟩⟩

/-- Claim C8 witness: the failing repository contributes nothing and the
merge over the remaining (here: empty) repository list is unchanged. -/
theorem failing_query_skipped_witness :
    (get_commit_history ("r".toList) true [] none none
      failingDemoRepo.run).commits = [] ∧
    allCommitsOf [] none none ([] ++ failingDemoRepo :: []) =
      allCommitsOf [] none none [] ++ allCommitsOf [] none none [] := by
  have h := failing_query_skipped [] none none ("r".toList)
    failingDemoRepo.run (by decide)
  exact ⟨h.1, h.2.2 [] [] failingDemoRepo rfl rfl⟩

/-- Claim C9: the author-listing command carries no date bound; the author
set returned by the extractor is independent of the identity filter and of
the configured dates; and a repository with non-empty history but zero
identity-matching commits yields an empty commit list together with a
non-empty author set. -/
theorem author_set_independent :
    hasDateBound all_authors_cmd = false ∧
    (∀ (name : List Char) (g : Bool) (us us' : List (List Char))
        (sd ed sd' ed' : Option (List Char))
        (run : List (List Char) → ProcResult),
      (get_commit_history name g us sd ed run).authors =
        (get_commit_history name g us' sd' ed' run).authors) ∧
    (∀ (name : List Char) (us : List (List Char))
        (sd ed : Option (List Char)) (run : List (List Char) → ProcResult),
      (run all_authors_cmd).returncode = 0 →
      (run all_authors_cmd).stdout ≠ [] →
      (∀ l ∈ (run (gitLogCmd sd ed)).stdout, ∀ t a m,
        pySplit2 l = [t, a, m] → matchesAny us a = false) →
      (get_commit_history name true us sd ed run).commits = [] ∧
      (get_commit_history name true us sd ed run).authors ≠ []) := by
  have key : ∀ (name : List Char) (us₀ : List (List Char))
      (sd₀ ed₀ : Option (List Char)) (run : List (List Char) → ProcResult),
      (get_commit_history name true us₀ sd₀ ed₀ run).authors =
        (if (run all_authors_cmd).returncode = 0
         then (run all_authors_cmd).stdout.dedup else []) := by
    intro name us₀ sd₀ ed₀ run
    unfold get_commit_history
    rw [if_neg (by simp : ¬(true = false))]
    dsimp only
    split <;> rfl
  refine ⟨by decide, ?_, ?_⟩
  · intro name g us us' sd ed sd' ed' run
    cases g with
    | false => rfl
    | true => rw [key name us sd ed run, key name us' sd' ed' run]
  · intro name us sd ed run hrc hne hnm
    constructor
    · by_cases hl : (run (gitLogCmd sd ed)).returncode = 0
      · unfold get_commit_history
        rw [if_neg (by simp : ¬(true = false))]
        dsimp only
        rw [if_pos hl]
        dsimp only
        rw [ List.filterMap_eq_nil_iff]
        intro l hlmem
        exact parseLine_eq_none_of_no_match (hnm l hlmem)
      · simp [get_commit_history, hl]
    · rw [key name us sd ed run, if_pos hrc]
      simp [List.dedup_eq_nil, hne]

/-- A repository with history by `bob` only: no line matches the identity
filter `["alice"]`. -/
def noMatchDemoRepo : RepoInput :=
  ⟨"r".toList, true, oracleOf ⟨0, ["bob".toList], []⟩
    ⟨0, ["2024-01-05 12:00:00,bob,x".toList], []⟩⟩

/-- Claim C9 witness: non-empty history, no identity match: empty commit
list, non-empty author set. -/
theorem author_set_independent_witness :
    (get_commit_history ("r".toList) true ["alice".toList] none none
      noMatchDemoRepo.run).commits = [] ∧
    (get_commit_history ("r".toList) true ["alice".toList] none none
      noMatchDemoRepo.run).authors ≠ [] := by
  refine (author_set_independent).2.2 ("r".toList) ["alice".toList] none none
    noMatchDemoRepo.run (by decide) (by decide) ?_
  intro l hl t a m hsp
  have hst : (noMatchDemoRepo.run (gitLogCmd none none)).stdout =
      ["2024-01-05 12:00:00,bob,x".toList] := by decide
  rw [hst] at hl
  simp only [List.mem_singleton] at hl
  subst hl
  have he : pySplit2 ("2024-01-05 12:00:00,bob,x".toList) =
      ["2024-01-05 12:00:00".toList, "bob".toList, "x".toList] := by decide
  rw [he] at hsp
  obtain ⟨h1, h2, h3⟩ := by
    simpa using hsp
  subst h2
  decide

/-- Claim C2: whenever the merged commit list is non-empty, the exported
table is the row-rendering of a permutation of it sorted by commit timestamp
in descending order, and every timestamp cell is a `YYYY-MM-DD HH:MM:SS`
string. -/
theorem export_sorted_desc_formatted (us : List (List Char))
    (sd ed : Option (List Char)) (repos : List RepoInput) (tbl : List Row)
    (h : (collect_all_commits us sd ed repos).exported = some tbl) :
    ∃ cs : List Commit,
      List.Perm cs (allCommitsOf us sd ed repos) ∧
      cs.Pairwise newerFirst ∧
      tbl = cs.map renderRow ∧
      ∀ row ∈ tbl, isTimestampFormat row.date = true := by
  have htbl : tbl = exportTable (allCommitsOf us sd ed repos) := by
    unfold collect_all_commits at h
    dsimp only at h
    split at h
    · exact absurd h (by simp)
    · exact (Option.some.inj h).symm
  refine ⟨sortDesc (allCommitsOf us sd ed repos), sortDesc_perm _,
    sortDesc_pairwise _, ?_, ?_⟩
  · rw [htbl]; rfl
  · intro row hr
    rw [htbl] at hr
    unfold exportTable at hr
    rw [List.mem_map] at hr
    obtain ⟨c, _, rfl⟩ := hr
    exact isTimestampFormat_strftime c.date

/-- A repository with two matching commits, at `2024-01-01 10:00:00` and
`2024-01-03 09:00:00`. -/
def sortDemoRepo : RepoInput :=
  ⟨"r".toList, true, oracleOf ⟨0, ["alice".toList], []⟩
    ⟨0, ["2024-01-01 10:00:00,alice,msgA".toList,
         "2024-01-03 09:00:00,alice,msgB".toList], []⟩⟩

/-- Claim C2 witness: the `2024-01-03` row is exported first. -/
theorem export_sorted_desc_formatted_witness :
    (collect_all_commits ["alice".toList] none none [sortDemoRepo]).exported =
      some [⟨"r".toList, "2024-01-03 09:00:00".toList, "msgB".toList⟩,
            ⟨"r".toList, "2024-01-01 10:00:00".toList, "msgA".toList⟩] ∧
    (∃ cs : List Commit,
      List.Perm cs (allCommitsOf ["alice".toList] none none [sortDemoRepo]) ∧
      cs.Pairwise newerFirst ∧
      ([⟨"r".toList, "2024-01-03 09:00:00".toList, "msgB".toList⟩,
        ⟨"r".toList, "2024-01-01 10:00:00".toList, "msgA".toList⟩] :
          List Row) = cs.map renderRow ∧
      ∀ row ∈ ([⟨"r".toList, "2024-01-03 09:00:00".toList, "msgB".toList⟩,
        ⟨"r".toList, "2024-01-01 10:00:00".toList, "msgA".toList⟩] :
          List Row), isTimestampFormat row.date = true) := by
  have h1 : (collect_all_commits ["alice".toList] none none
      [sortDemoRepo]).exported =
      some [⟨"r".toList, "2024-01-03 09:00:00".toList, "msgB".toList⟩,
            ⟨"r".toList, "2024-01-01 10:00:00".toList, "msgA".toList⟩] := by
    decide
  exact ⟨h1, export_sorted_desc_formatted _ _ _ _ _ h1⟩

theorem fgrAux_node (path : List String) (name : String)
    (cs : List (String × DirTree)) :
    fgrAux path name (DirTree.node cs) =
      (if name = outputDirName then []
       else if ".git" ∈ cs.map Prod.fst then [path ++ [name]] else []) ++
      (if name = outputDirName then cs
       else if ".git" ∈ cs.map Prod.fst then cs.eraseP (fun c => c.1 == ".git")
       else cs).flatMap (fun c => fgrAux (path ++ [name]) c.1 c.2) := by
  rw [fgrAux]
  congr 1
  exact (@List.flatMap_subtype (String × DirTree) (List String) _ _
    (fun c => fgrAux (path ++ [name]) c.1.1 c.1.2)
    (fun c => fgrAux (path ++ [name]) c.1 c.2) (fun x h => rfl)).trans
    (by rw [List.unattach_attach])

theorem wfB_node (cs : List (String × DirTree)) :
    wfB (DirTree.node cs) =
      (nodupB (cs.map Prod.fst) && cs.all (fun c => wfB c.2)) := by
  rw [wfB]
  congr 1
  rw [Bool.eq_iff_iff, List.all_eq_true, List.all_eq_true]
  exact ⟨fun h c hc => h ⟨c, hc⟩ (List.mem_attach _ _), fun h x _ => h x.1 x.2⟩

theorem wfB_node_iff (cs : List (String × DirTree)) :
    wfB (DirTree.node cs) = true ↔
      nodupB (cs.map Prod.fst) = true ∧ ∀ c ∈ cs, wfB c.2 = true := by
  rw [wfB_node, Bool.and_eq_true, List.all_eq_true]

theorem nodupB_iff (l : List String) : nodupB l = true ↔ l.Nodup := by
  induction l with
  | nil => simp [nodupB]
  | cons x xs ih => simp [nodupB, ih, List.nodup_cons]

theorem wfB_children {cs : List (String × DirTree)} {c : String × DirTree}
    (hwf : wfB (DirTree.node cs) = true) (hc : c ∈ cs) : wfB c.2 = true :=
  ((wfB_node_iff cs).mp hwf).2 c hc

theorem wfB_child {t : DirTree} {c : String × DirTree}
    (hwf : wfB t = true) (hc : c ∈ t.children) : wfB c.2 = true := by
  cases t with
  | node cs => exact wfB_children hwf hc

theorem wfB_names {t : DirTree} (hwf : wfB t = true) :
    (t.children.map Prod.fst).Nodup := by
  cases t with
  | node cs => exact (nodupB_iff _).mp ((wfB_node_iff cs).mp hwf).1

theorem name_inj {cs : List (String × DirTree)}
    (hnd : (cs.map Prod.fst).Nodup) {c c' : String × DirTree}
    (hc : c ∈ cs) (hc' : c' ∈ cs) (he : c.1 = c'.1) : c = c' := by
  induction cs with
  | nil => cases hc
  | cons d ds ih =>
    rw [List.map_cons, List.nodup_cons] at hnd
    rcases List.mem_cons.mp hc with rfl | hc2
    · rcases List.mem_cons.mp hc' with rfl | hc2'
      · rfl
      · exact absurd (he ▸ List.mem_map_of_mem Prod.fst hc2') hnd.1
    · rcases List.mem_cons.mp hc' with rfl | hc2'
      · have hmm : c'.1 ∈ List.map Prod.fst ds :=
          he ▸ List.mem_map_of_mem Prod.fst hc2
        exact absurd hmm hnd.1
      · exact ih hnd.2 hc2 hc2'

theorem find?_eq_of_nodup {cs : List (String × DirTree)}
    (hnd : (cs.map Prod.fst).Nodup) {c : String × DirTree} (hc : c ∈ cs) :
    cs.find? (fun x => x.1 == c.1) = some c := by
  induction cs with
  | nil => cases hc
  | cons d ds ih =>
    rw [List.map_cons, List.nodup_cons] at hnd
    rcases List.mem_cons.mp hc with rfl | hc2
    · simp [List.find?_cons]
    · have hne : (d.1 == c.1) = false := by
        refine beq_eq_false_iff_ne.mpr fun hbeq => ?_
        exact hnd.1 (hbeq ▸ List.mem_map_of_mem Prod.fst hc2)
      rw [List.find?_cons, hne]
      exact ih hnd.2 hc2

theorem not_mem_eraseP_git {cs : List (String × DirTree)}
    (hnd : (cs.map Prod.fst).Nodup) {c : String × DirTree} (hc : c ∈ cs)
    (hgit : c.1 = ".git") : c ∉ cs.eraseP (fun x => x.1 == ".git") := by
  induction cs with
  | nil => cases hc
  | cons d ds ih =>
    rw [List.map_cons, List.nodup_cons] at hnd
    rw [List.eraseP_cons]
    cases hpd : (d.1 == ".git") with
    | true =>
      simp only [cond_true]
      intro hcds
      have hd : d.1 = ".git" := eq_of_beq hpd
      exact hnd.1 ((hd.trans hgit.symm) ▸ List.mem_map_of_mem Prod.fst hcds)
    | false =>
      simp only [cond_false]
      intro hmem
      rcases List.mem_cons.mp hmem with rfl | hmem2
      · exact absurd (beq_iff_eq.mpr hgit) (by rw [hpd]; simp)
      · have hc2 : c ∈ ds := by
          rcases List.mem_cons.mp hc with rfl | h2
          · exact absurd (beq_iff_eq.mpr hgit) (by rw [hpd]; simp)
          · exact h2
        exact ih hnd.2 hc2 hmem2

theorem hasGitChild_node_iff (cs : List (String × DirTree)) :
    hasGitChild (DirTree.node cs) = true ↔ ".git" ∈ cs.map Prod.fst := by
  simp [hasGitChild, DirTree.children]

theorem mem_fgrAux_iff_aux (n : Nat) : ∀ (t : DirTree), sizeOf t ≤ n →
    ∀ (path : List String) (name : String) (q : List String),
    wfB t = true →
    (q ∈ fgrAux path name t ↔
      ∃ rel, q = path ++ name :: rel ∧ Ret name t rel) := by
  induction n with
  | zero =>
    intro t hst
    exact absurd hst (by cases t with | node cs => simp)
  | succ n ih =>
    intro t hst path name q hwf
    cases t with
    | node cs =>
    rw [fgrAux_node, List.mem_append, List.mem_flatMap]
    constructor
    · rintro (hq | ⟨c, hcsub, hq⟩)
      · by_cases ho : name = outputDirName
        · rw [if_pos ho] at hq
          cases hq
        · rw [if_neg ho] at hq
          by_cases hg : ".git" ∈ cs.map Prod.fst
          · rw [if_pos hg] at hq
            obtain rfl := List.mem_singleton.mp hq
            exact ⟨[], by simp, Ret.here ho ((hasGitChild_node_iff cs).mpr hg)⟩
          · rw [if_neg hg] at hq
            cases hq
      · have hcs : c ∈ cs := by
          by_cases ho : name = outputDirName
          · rw [if_pos ho] at hcsub
            exact hcsub
          · rw [if_neg ho] at hcsub
            by_cases hg : ".git" ∈ cs.map Prod.fst
            · rw [if_pos hg] at hcsub
              exact List.Sublist.mem hcsub (List.eraseP_sublist _)
            · rw [if_neg hg] at hcsub
              exact hcsub
        have hside : c.1 = ".git" → name = outputDirName := by
          intro hgit
          by_contra ho
          rw [if_neg ho] at hcsub
          by_cases hg : ".git" ∈ cs.map Prod.fst
          · rw [if_pos hg] at hcsub
            exact not_mem_eraseP_git (wfB_names hwf) hcs hgit hcsub
          · exact hg (hgit ▸ List.mem_map_of_mem Prod.fst hcs)
        have hsz : sizeOf c.2 ≤ n := by
          have hlt := sizeOf_snd_lt_of_mem hcs
          omega
        obtain ⟨rel, rfl, hret⟩ := (ih c.2 hsz (path ++ [name]) c.1 q
          (wfB_children hwf hcs)).mp hq
        exact ⟨c.1 :: rel, by simp, Ret.step c.1 c hcs rfl hside hret⟩
    · rintro ⟨rel, rfl, hret⟩
      cases hret with
      | here hno hgit =>
        left
        rw [if_neg hno, if_pos ((hasGitChild_node_iff cs).mp hgit)]
        simp
      | step x c hc hcx hside hrec =>
        rename_i rel'
        right
        have hcs : c ∈ cs := hc
        have hsz : sizeOf c.2 ≤ n := by
          have hlt := sizeOf_snd_lt_of_mem hcs
          omega
        refine ⟨c, ?_, ?_⟩
        · by_cases ho : name = outputDirName
          · rw [if_pos ho]
            exact hcs
          · rw [if_neg ho]
            by_cases hg : ".git" ∈ cs.map Prod.fst
            · rw [if_pos hg]
              have hne : (c.1 == ".git") = false := by
                refine beq_eq_false_iff_ne.mpr fun hx => ?_
                exact ho (hside (hcx.symm.trans hx))
              exact (List.mem_eraseP_of_neg (by rw [hne]; simp)).mpr hcs
            · rw [if_neg hg]
              exact hcs
        · refine (ih c.2 hsz (path ++ [name]) c.1 _
            (wfB_children hwf hcs)).mpr ⟨rel', ?_, hcx ▸ hrec⟩
          simp [hcx]

theorem mem_fgrAux_iff {t : DirTree} {path : List String} {name : String}
    {q : List String} (hwf : wfB t = true) :
    q ∈ fgrAux path name t ↔
      ∃ rel, q = path ++ name :: rel ∧ Ret name t rel :=
  mem_fgrAux_iff_aux (sizeOf t) t (Nat.le_refl _) path name q hwf

theorem Ret_nodeAt {name : String} {t : DirTree} {rel : List String}
    (h : Ret name t rel) : wfB t = true →
    ∃ s, nodeAt t rel = some s ∧ hasGitChild s = true ∧
      rel.getLastD name ≠ outputDirName := by
  induction h with
  | here hno hgit => exact fun _ => ⟨_, rfl, hgit, hno⟩
  | step x c hc hcx hside hrec ihr =>
    intro hwf
    obtain ⟨s, hs, hgs, hlast⟩ := ihr (wfB_child hwf hc)
    have hf : (fun c0 : String × DirTree => c0.1 == x) = fun c0 => c0.1 == c.1 := by
      rw [hcx]
    refine ⟨s, ?_, hgs, ?_⟩
    · rw [nodeAt, hf, find?_eq_of_nodup (wfB_names hwf) hc]
      exact hs
    · rw [List.getLastD_cons]
      exact hlast

theorem Ret_no_git_nesting : ∀ (relr : List String) (t : DirTree)
    (name : String) (relq : List String), wfB t = true →
    Ret name t relr → Ret name t relq →
    (relr ++ [".git"]) <+: relq → False := by
  intro relr
  induction relr with
  | nil =>
    intro t name relq hwf h1 h2 hp
    obtain ⟨tl, htl⟩ := hp
    rw [List.nil_append, List.cons_append, List.nil_append] at htl
    subst htl
    cases h2 with
    | step x c hc hcx hside hrec =>
      have hname := hside rfl
      cases h1 with
      | here hno _ => exact hno hname
  | cons y relr' ihr =>
    intro t name relq hwf h1 h2 hp
    obtain ⟨tl, htl⟩ := hp
    subst htl
    have he : ((y :: relr') ++ [".git"]) ++ tl =
        y :: ((relr' ++ [".git"]) ++ tl) := by simp
    rw [he] at h2
    cases h1 with
    | step x c hc hcx hside hrec =>
      cases h2 with
      | step x2 c2 hc2 hcx2 hside2 hrec2 =>
        have hcc : c = c2 := name_inj (wfB_names hwf) hc hc2
          (hcx.trans hcx2.symm)
        subst hcc
        exact ihr c.2 y ((relr' ++ [".git"]) ++ tl) (wfB_child hwf hc)
          (hcx ▸ hrec) (hcx ▸ hrec2) ⟨tl, rfl⟩

theorem fgrAux_nodup_aux (n : Nat) : ∀ (t : DirTree), sizeOf t ≤ n →
    ∀ (path : List String) (name : String), wfB t = true →
    (fgrAux path name t).Nodup := by
  induction n with
  | zero =>
    intro t hst
    exact absurd hst (by cases t with | node cs => simp)
  | succ n ih =>
    intro t hst path name hwf
    cases t with
    | node cs =>
    rw [fgrAux_node]
    have hnd : (cs.map Prod.fst).Nodup := wfB_names hwf
    have hsubsl : (if name = outputDirName then cs
        else if ".git" ∈ cs.map Prod.fst then
          cs.eraseP (fun c => c.1 == ".git") else cs).Sublist cs := by
      split
      · exact List.Sublist.refl _
      · split
        · exact List.eraseP_sublist _
        · exact List.Sublist.refl _
    have hsubcs : ∀ c, c ∈ (if name = outputDirName then cs
        else if ".git" ∈ cs.map Prod.fst then
          cs.eraseP (fun c => c.1 == ".git") else cs) → c ∈ cs :=
      fun c hc => List.Sublist.mem hc hsubsl
    have hshape : ∀ c, c ∈ cs → ∀ q, q ∈ fgrAux (path ++ [name]) c.1 c.2 →
        ∃ rel, q = (path ++ [name]) ++ c.1 :: rel := by
      intro c hcs q hq
      obtain ⟨rel, hrel, _⟩ := (mem_fgrAux_iff (wfB_children hwf hcs)).mp hq
      exact ⟨rel, hrel⟩
    apply List.Nodup.append
    · split
      · exact List.nodup_nil
      · split
        · simp
        · exact List.nodup_nil
    · rw [List.nodup_flatMap]
      refine ⟨?_, ?_⟩
      · intro c hc
        have hcs := hsubcs c hc
        have hsz : sizeOf c.2 ≤ n := by
          have := sizeOf_snd_lt_of_mem hcs
          omega
        exact ih c.2 hsz (path ++ [name]) c.1 (wfB_children hwf hcs)
      · have hpair : (if name = outputDirName then cs
            else if ".git" ∈ cs.map Prod.fst then
              cs.eraseP (fun c => c.1 == ".git") else cs).Pairwise
            (fun a b => a.1 ≠ b.1) := by
          have hnds := List.Sublist.nodup (List.Sublist.map Prod.fst hsubsl) hnd
          rw [List.Nodup, List.pairwise_map] at hnds
          exact hnds
        refine List.Pairwise.imp_of_mem ?_ hpair
        intro a b ha hb hne q hqa hqb
        obtain ⟨rel, hrel⟩ := hshape a (hsubcs a ha) q hqa
        obtain ⟨rel', hrel'⟩ := hshape b (hsubcs b hb) q hqb
        have : a.1 :: rel = b.1 :: rel' :=
          List.append_cancel_left (hrel ▸ hrel')
        exact hne (List.cons.inj this).1
    · intro q hqhere hqflat
      have hq : q = path ++ [name] := by
        split at hqhere
        · cases hqhere
        · split at hqhere
          · exact List.mem_singleton.mp hqhere
          · cases hqhere
      obtain ⟨c, hcsub, hqc⟩ := List.mem_flatMap.mp hqflat
      obtain ⟨rel, hrel⟩ := hshape c (hsubcs c hcsub) q hqc
      rw [hq] at hrel
      have hlen := congrArg List.length hrel
      simp only [List.length_append, List.length_cons] at hlen
      omega

theorem reach_Ret : ∀ (rel : List String) (t : DirTree) (name : String)
    (s : DirTree), wfB t = true → nodeAt t rel = some s →
    hasGitChild s = true → rel.getLastD name ≠ outputDirName →
    (∀ rel₀, Ret name t rel₀ → ¬ ((rel₀ ++ [".git"]) <+: rel)) →
    Ret name t rel := by
  intro rel
  induction rel with
  | nil =>
    intro t name s hwf hn hg hl hnp
    have hts : t = s := Option.some.inj hn
    subst hts
    exact Ret.here hl hg
  | cons m rest ihr =>
    intro t name s hwf hn hg hl hnp
    rw [nodeAt] at hn
    cases hf : t.children.find? (fun c => c.1 == m) with
    | none =>
      rw [hf] at hn
      cases hn
    | some c =>
      rw [hf] at hn
      have hn' : nodeAt c.2 rest = some s := hn
      have hbeq := List.find?_some hf
      have hcm : c.1 = m := by
        simp only [] at hbeq
        exact eq_of_beq hbeq
      have hc : c ∈ t.children := List.mem_of_find?_eq_some hf
      have hside : m = ".git" → name = outputDirName := by
        intro hm
        by_contra ho
        have hgt : hasGitChild t = true := by
          cases t with
          | node cs0 =>
            exact (hasGitChild_node_iff cs0).mpr
              ((hcm.trans hm) ▸ List.mem_map_of_mem Prod.fst hc)
        exact hnp [] (Ret.here ho hgt) ⟨rest, by rw [hm]; rfl⟩
      have hretsub : Ret c.1 c.2 rest := by
        apply ihr c.2 c.1 s (wfB_child hwf hc) hn' hg
        · rw [List.getLastD_cons] at hl
          rw [hcm]
          exact hl
        · intro rel₀ hr0 hpre
          have hstep : Ret name t (m :: rel₀) :=
            Ret.step m c hc hcm hside (hcm ▸ hr0)
          exact hnp (m :: rel₀) hstep
            (by
              obtain ⟨tl, htl⟩ := hpre
              exact ⟨tl, by rw [List.cons_append, List.cons_append, htl]⟩)
      exact Ret.step m c hc hcm hside (hcm ▸ hretsub)

/-- Claim C10: on a well-formed directory tree the discoverer returns
exactly the reachable directories that contain a `.git` subdirectory: every
returned path locates a directory with a `.git` child; each qualifying
directory appears exactly once; no returned path lies inside a returned
path's `.git` folder; no returned path's basename equals the
output-artifact directory name; and, completeness, every directory with a
`.git` child whose basename is not the output name and which does not lie
inside a returned path's `.git` folder is returned. -/
theorem find_git_repos_characterization (baseName : String) (t : DirTree)
    (hwf : wfB t = true) :
    (∀ q ∈ find_git_repos baseName t, ∃ rel s, q = baseName :: rel ∧
        nodeAt t rel = some s ∧ hasGitChild s = true) ∧
    (find_git_repos baseName t).Nodup ∧
    (∀ r ∈ find_git_repos baseName t, ∀ q ∈ find_git_repos baseName t,
        ¬ ((r ++ [".git"]) <+: q)) ∧
    (∀ q ∈ find_git_repos baseName t, q.getLastD "" ≠ outputDirName) ∧
    (∀ rel s, nodeAt t rel = some s → hasGitChild s = true →
        (baseName :: rel).getLastD "" ≠ outputDirName →
        (∀ r ∈ find_git_repos baseName t,
          ¬ ((r ++ [".git"]) <+: baseName :: rel)) →
        baseName :: rel ∈ find_git_repos baseName t) := by
  have hmem : ∀ q, q ∈ find_git_repos baseName t ↔
      ∃ rel, q = baseName :: rel ∧ Ret baseName t rel := by
    intro q
    unfold find_git_repos
    rw [mem_fgrAux_iff hwf]
    simp
  refine ⟨?_, ?_, ?_, ?_, ?_⟩
  · intro q hq
    obtain ⟨rel, rfl, hret⟩ := (hmem _).mp hq
    obtain ⟨s, hs, hg, _⟩ := Ret_nodeAt hret hwf
    exact ⟨rel, s, rfl, hs, hg⟩
  · exact fgrAux_nodup_aux (sizeOf t) t (Nat.le_refl _) [] baseName hwf
  · intro r hr q hq hpre
    obtain ⟨relr, rfl, hretr⟩ := (hmem _).mp hr
    obtain ⟨relq, rfl, hretq⟩ := (hmem _).mp hq
    have hpre' : (relr ++ [".git"]) <+: relq := by
      rw [List.cons_append] at hpre
      exact (List.cons_prefix_cons.mp hpre).2
    exact Ret_no_git_nesting relr t baseName relq hwf hretr hretq hpre'
  · intro q hq
    obtain ⟨rel, rfl, hret⟩ := (hmem _).mp hq
    obtain ⟨_, _, _, hlast⟩ := Ret_nodeAt hret hwf
    rw [List.getLastD_cons]
    exact hlast
  · intro rel s hn hg hl hnr
    refine (hmem _).mpr ⟨rel, rfl, ?_⟩
    apply reach_Ret rel t baseName s hwf hn hg
    · rw [List.getLastD_cons] at hl
      exact hl
    · intro rel₀ hr0 hpre
      have hmem0 : baseName :: rel₀ ∈ find_git_repos baseName t :=
        (hmem _).mpr ⟨rel₀, rfl, hr0⟩
      refine hnr _ hmem0 ?_
      rw [List.cons_append]
      exact List.cons_prefix_cons.mpr ⟨rfl, hpre⟩

/-- A small concrete tree: a repository `repoA` with a nested repository
`repoA/sub`, plus a plain directory. -/
def demoTree : DirTree :=
  DirTree.node
    [("repoA", DirTree.node
      [(".git", DirTree.node []),
       ("sub", DirTree.node [(".git", DirTree.node [])])]),
     ("plain", DirTree.node [])]

/-- Claim C10 witness: on the concrete tree the returned list is
duplicate-free and no returned basename is the output directory name. -/
theorem find_git_repos_characterization_witness :
    (find_git_repos "base" demoTree).Nodup ∧
    (∀ q ∈ find_git_repos "base" demoTree, q.getLastD "" ≠ outputDirName) := by
  have hwf : wfB demoTree = true := by
    simp [demoTree, wfB_node, nodupB]
  exact ⟨(find_git_repos_characterization "base" demoTree hwf).2.1,
    (find_git_repos_characterization "base" demoTree hwf).2.2.2.1⟩
